import Mathlib

/-!
Verification of the polymarket-tools CLI core against its specification.

The Rust source is shallowly embedded: `rust_decimal::Decimal` values are
modelled by rationals (the claims are about the represented values, not the
96-bit mantissa limit), fallible functions return `Except`, and the
network-facing approval command is modelled as a generator of effect traces.
-/

namespace PolymarketTools

/-- The order side enumeration from the SDK (`clob::types::Side`). -/
inductive Side where
  | Buy
  | Sell
deriving DecidableEq

/-- The order-amount tagged union: a USDC notional value or a share count
(spec section 3, `OrderAmount`). In the Rust enum exactly one variant is
populated by construction, as here. -/
inductive Amount where
  | notional (value : ℚ)
  | shareCount (value : ℚ)
deriving DecidableEq

/-- The rational value carried by either variant of an `Amount`. -/
def amountValue : Amount → ℚ
  | .notional v => v
  | .shareCount v => v

/-- Integer truncation toward zero of a rational (floor for non-negative
values, ceiling for negative ones). -/
def truncTowardZero (q : ℚ) : ℤ :=
  if 0 ≤ q then ⌊q⌋ else ⌈q⌉

/-- `Decimal::round_dp_with_strategy(2, RoundingStrategy::ToZero)` from
`src/commands/order.rs` line 93: truncate to 2 fractional digits, rounding
toward zero. -/
def round_dp_to_zero2 (q : ℚ) : ℚ :=
  (truncTowardZero (q * 100) : ℚ) / 100

/-- `q` is representable with at most `k` fractional digits. -/
def hasFracDigitsLe (k : ℕ) (q : ℚ) : Bool :=
  (q * 10 ^ k).den == 1

/-- Modelled from the spec: the SDK constructor `Amount::usdc` is not under
`src/`; spec section 4.1 states normalization fails with `InvalidAmount` when
the value cannot be represented in the settlement currency precision
(6 fractional digits, section 3) or is negative. -/
def Amount.usdc (v : ℚ) : Except String Amount :=
  if 0 ≤ v ∧ hasFracDigitsLe 6 v then .ok (.notional v) else .error "Invalid USDC amount"

/-- Modelled from the spec: the SDK constructor `Amount::shares` is not under
`src/`; as for `Amount.usdc`, the value must be non-negative and representable
in the token decimal precision (6 fractional digits). -/
def Amount.shares (v : ℚ) : Except String Amount :=
  if 0 ≤ v ∧ hasFracDigitsLe 6 v then .ok (.shareCount v) else .error "Invalid Share amount"

/-- `compute_order_amount` from `src/commands/order.rs` lines 92-111:
truncate the amount to 2 fractional digits toward zero, then for a buy with a
price emit USDC notional = truncated amount times price, for a buy without a
price emit the truncated amount as USDC notional, and for a sell emit the
truncated amount as shares, ignoring the price. -/
def compute_order_amount (side : Side) (amount : ℚ) (price : Option ℚ) : Except String Amount :=
  let rounded_amount := round_dp_to_zero2 amount
  match side, price with
  | .Buy, some price_dec => Amount.usdc (rounded_amount * price_dec)
  | .Buy, none => Amount.usdc rounded_amount
  | .Sell, _ => Amount.shares rounded_amount

/-- `parse_side` from `src/commands/order.rs` lines 80-86. -/
def parse_side (side : String) : Except String Side :=
  match side.toLower with
  | "buy" => .ok .Buy
  | "sell" => .ok .Sell
  | _ => .error "Invalid side: must be buy or sell"

/-! Helper lemmas about the amount normalizer. -/

theorem compute_buy_some_eq (a p : ℚ) :
    compute_order_amount .Buy a (some p) = Amount.usdc (round_dp_to_zero2 a * p) := rfl

theorem compute_buy_none_eq (a : ℚ) :
    compute_order_amount .Buy a none = Amount.usdc (round_dp_to_zero2 a) := rfl

theorem compute_sell_eq (a : ℚ) (p : Option ℚ) :
    compute_order_amount .Sell a p = Amount.shares (round_dp_to_zero2 a) := by
  cases p <;> rfl

theorem usdc_eq_ok (v : ℚ) (r : Amount) (h : Amount.usdc v = .ok r) :
    r = .notional v ∧ 0 ≤ v ∧ hasFracDigitsLe 6 v = true := by
  unfold Amount.usdc at h
  split at h
  case isTrue hc => cases h; exact ⟨rfl, hc⟩
  case isFalse hc => cases h

theorem shares_eq_ok (v : ℚ) (r : Amount) (h : Amount.shares v = .ok r) :
    r = .shareCount v ∧ 0 ≤ v ∧ hasFracDigitsLe 6 v = true := by
  unfold Amount.shares at h
  split at h
  case isTrue hc => cases h; exact ⟨rfl, hc⟩
  case isFalse hc => cases h

theorem usdc_ok (v : ℚ) (h1 : 0 ≤ v) (h2 : hasFracDigitsLe 6 v = true) :
    Amount.usdc v = .ok (.notional v) := by
  unfold Amount.usdc
  rw [if_pos ⟨h1, h2⟩]

theorem shares_ok (v : ℚ) (h1 : 0 ≤ v) (h2 : hasFracDigitsLe 6 v = true) :
    Amount.shares v = .ok (.shareCount v) := by
  unfold Amount.shares
  rw [if_pos ⟨h1, h2⟩]

theorem hasFracDigitsLe_iff (k : ℕ) (q : ℚ) :
    hasFracDigitsLe k q = true ↔ ∃ z : ℤ, q * 10 ^ k = (z : ℚ) := by
  unfold hasFracDigitsLe
  rw [beq_iff_eq]
  constructor
  · intro h
    exact ⟨(q * 10 ^ k).num, ((Rat.den_eq_one_iff _).mp h).symm⟩
  · rintro ⟨z, hz⟩
    rw [hz]
    exact Rat.den_intCast z

theorem round_dp_to_zero2_intCast (z : ℤ) : round_dp_to_zero2 (z : ℚ) = z := by
  unfold round_dp_to_zero2 truncTowardZero
  have h : ((z : ℚ) * 100) = ((z * 100 : ℤ) : ℚ) := by push_cast; ring
  rw [h]
  split
  · rw [Int.floor_intCast]
    push_cast
    field_simp
  · rw [Int.ceil_intCast]
    push_cast
    field_simp

theorem round_dp_to_zero2_mul_100 (a : ℚ) :
    round_dp_to_zero2 a * 100 = (truncTowardZero (a * 100) : ℚ) := by
  unfold round_dp_to_zero2
  field_simp

theorem hasFracDigitsLe_two_round_dp_to_zero2 (a : ℚ) :
    hasFracDigitsLe 2 (round_dp_to_zero2 a) = true := by
  rw [hasFracDigitsLe_iff]
  refine ⟨truncTowardZero (a * 100), ?_⟩
  rw [show ((10 : ℚ) ^ 2) = 100 by norm_num]
  exact round_dp_to_zero2_mul_100 a

theorem hasFracDigitsLe_six_of_two (q : ℚ) (h : hasFracDigitsLe 2 q = true) :
    hasFracDigitsLe 6 q = true := by
  rw [hasFracDigitsLe_iff] at h ⊢
  obtain ⟨z, hz⟩ := h
  refine ⟨z * 10 ^ 4, ?_⟩
  push_cast
  rw [show ((10 : ℚ) ^ 6) = 10 ^ 2 * 10 ^ 4 by norm_num, ← mul_assoc, hz]
  norm_num

theorem round_dp_to_zero2_hundred : round_dp_to_zero2 (100 : ℚ) = 100 := by
  have h := round_dp_to_zero2_intCast 100
  push_cast at h
  exact h

theorem round_dp_to_zero2_fifty : round_dp_to_zero2 (50 : ℚ) = 50 := by
  have h := round_dp_to_zero2_intCast 50
  push_cast at h
  exact h

theorem round_dp_to_zero2_one : round_dp_to_zero2 (1 : ℚ) = 1 := by
  have h := round_dp_to_zero2_intCast 1
  push_cast at h
  exact h

/-- C1: whenever `compute_order_amount` with side Buy and a supplied price
succeeds, the result is the notional amount equal to the 2-digit
toward-zero truncation of the raw amount multiplied by the price. -/
theorem buy_with_price_notional (a p : ℚ) (r : Amount)
    (h : compute_order_amount .Buy a (some p) = .ok r) :
    r = .notional (round_dp_to_zero2 a * p) :=
  (usdc_eq_ok _ _ (compute_buy_some_eq a p ▸ h)).1

theorem buy_with_price_notional_witness :
    (Amount.notional 65 : Amount) = .notional (round_dp_to_zero2 100 * (13 / 20)) := by
  refine buy_with_price_notional 100 (13 / 20) (.notional 65) ?_
  rw [compute_buy_some_eq, round_dp_to_zero2_hundred,
    show (100 : ℚ) * (13 / 20) = 65 by norm_num]
  exact usdc_ok 65 (by norm_num) ((hasFracDigitsLe_iff 6 65).mpr ⟨65000000, by norm_num⟩)

/-- C2: for side Sell the optional price never affects the result, and any
successful result is the share amount equal to the 2-digit toward-zero
truncation of the raw amount. -/
theorem sell_ignores_price (a : ℚ) (p : Option ℚ) :
    compute_order_amount .Sell a p = compute_order_amount .Sell a none ∧
    ∀ r, compute_order_amount .Sell a p = .ok r → r = .shareCount (round_dp_to_zero2 a) := by
  refine ⟨by cases p <;> rfl, fun r h => ?_⟩
  exact (shares_eq_ok _ _ (compute_sell_eq a p ▸ h)).1

theorem sell_ignores_price_witness :
    compute_order_amount .Sell 50 (some (7 / 10)) = compute_order_amount .Sell 50 none ∧
    (Amount.shareCount 50 : Amount) = .shareCount (round_dp_to_zero2 50) := by
  refine ⟨(sell_ignores_price 50 (some (7 / 10))).1,
    (sell_ignores_price 50 (some (7 / 10))).2 (.shareCount 50) ?_⟩
  rw [compute_sell_eq, round_dp_to_zero2_fifty]
  exact shares_ok 50 (by norm_num) ((hasFracDigitsLe_iff 6 50).mpr ⟨50000000, by norm_num⟩)

/-- C3: the 2-decimal truncation rounds toward zero and never up:
`compute_order_amount Buy 10.999 none` yields notional 10.99, and for every
non-negative amount the truncated value is at most the amount. -/
theorem truncation_never_rounds_up :
    compute_order_amount .Buy (10999 / 1000) none = .ok (.notional (1099 / 100)) ∧
    ∀ a : ℚ, 0 ≤ a → round_dp_to_zero2 a ≤ a := by
  constructor
  · have hr : round_dp_to_zero2 ((10999 : ℚ) / 1000) = 1099 / 100 := by
      unfold round_dp_to_zero2 truncTowardZero
      rw [if_pos (by norm_num : (0 : ℚ) ≤ (10999 : ℚ) / 1000 * 100)]
      rw [show ⌊(10999 : ℚ) / 1000 * 100⌋ = 1099 by rw [Int.floor_eq_iff]; norm_num]
      norm_num
    rw [compute_buy_none_eq, hr]
    exact usdc_ok _ (by norm_num)
      ((hasFracDigitsLe_iff 6 _).mpr ⟨10990000, by norm_num⟩)
  · intro a ha
    unfold round_dp_to_zero2 truncTowardZero
    have h100 : (0 : ℚ) ≤ a * 100 := by positivity
    rw [if_pos h100, div_le_iff₀ (by norm_num : (0 : ℚ) < 100)]
    exact Int.floor_le _

theorem truncation_never_rounds_up_witness :
    (0 : ℚ) ≤ 3456 / 1000 ∧ round_dp_to_zero2 (3456 / 1000) ≤ 3456 / 1000 :=
  ⟨by norm_num, truncation_never_rounds_up.2 (3456 / 1000) (by norm_num)⟩

/-- C4 counterexample: a successful Buy with a supplied price can emit a
notional value that is not representable with 2 fractional digits: with
amount 1 and price 0.005 the normalizer succeeds and emits notional 0.005. -/
theorem order_amount_two_digit_invariant_cex :
    compute_order_amount .Buy 1 (some (1 / 200)) = .ok (.notional (1 / 200)) ∧
    hasFracDigitsLe 2 (1 / 200) = false := by
  constructor
  · rw [compute_buy_some_eq, round_dp_to_zero2_one, one_mul]
    exact usdc_ok _ (by norm_num) ((hasFracDigitsLe_iff 6 _).mpr ⟨5000, by norm_num⟩)
  · rw [Bool.eq_false_iff]
    intro h
    obtain ⟨z, hz⟩ := (hasFracDigitsLe_iff 2 _).mp h
    have h2 : (1 : ℚ) = 2 * z := by
      field_simp at hz
      linarith
    have h3 : (1 : ℤ) = 2 * z := by exact_mod_cast h2
    omega

/-- C4 amended: every successfully emitted order amount has exactly one
populated variant, a non-negative value, and a value representable with at
most 6 fractional digits (the settlement currency precision); the
2-fractional-digit bound additionally holds in the Sell and priceless Buy
cases, where the emitted value is exactly the truncated amount. -/
theorem order_amount_invariant (side : Side) (a : ℚ) (p : Option ℚ) (r : Amount)
    (h : compute_order_amount side a p = .ok r) :
    (0 ≤ amountValue r ∧ hasFracDigitsLe 6 (amountValue r) = true) ∧
    ((side = .Sell ∨ p = none) → hasFracDigitsLe 2 (amountValue r) = true) := by
  cases side
  case Sell =>
    obtain ⟨hr, h1, h2⟩ := shares_eq_ok _ _ (compute_sell_eq a p ▸ h)
    subst hr
    exact ⟨⟨h1, h2⟩, fun _ => hasFracDigitsLe_two_round_dp_to_zero2 a⟩
  case Buy =>
    cases p
    case none =>
      obtain ⟨hr, h1, h2⟩ := usdc_eq_ok _ _ (compute_buy_none_eq a ▸ h)
      subst hr
      exact ⟨⟨h1, h2⟩, fun _ => hasFracDigitsLe_two_round_dp_to_zero2 a⟩
    case some q =>
      obtain ⟨hr, h1, h2⟩ := usdc_eq_ok _ _ (compute_buy_some_eq a q ▸ h)
      subst hr
      refine ⟨⟨h1, h2⟩, fun hc => ?_⟩
      rcases hc with hc | hc <;> simp at hc

theorem order_amount_invariant_witness :
    ((0 : ℚ) ≤ amountValue (.shareCount 50) ∧
      hasFracDigitsLe 6 (amountValue (.shareCount 50)) = true) ∧
    ((Side.Sell = Side.Sell ∨ (none : Option ℚ) = none) →
      hasFracDigitsLe 2 (amountValue (.shareCount 50)) = true) := by
  refine order_amount_invariant .Sell 50 none (.shareCount 50) ?_
  rw [compute_sell_eq, round_dp_to_zero2_fifty]
  exact shares_ok 50 (by norm_num) ((hasFracDigitsLe_iff 6 50).mpr ⟨50000000, by norm_num⟩)

/-! Address resolution (`src/commands/positions.rs`). -/

/-- The failure cases of `resolve_user_address`, one per anyhow context
message in `src/commands/positions.rs` lines 37-47. -/
inductive AddrError where
  | invalidFormat
  | invalidEnvFormat
  | invalidKey
  | missingConfig
deriving DecidableEq

/-- `resolve_user_address` from `src/commands/positions.rs` lines 37-47,
parameterized over the SDK address parser (`Address::from_str`) and the
private-key signer derivation (`LocalSigner::from_str` then `.address()`):
an explicit argument is parsed and returned, a parse failure being a hard
error; otherwise the `USER_ADDRESS` environment value is parsed, a failure
again being a hard error; otherwise the address is derived from the
`PRIVATE_KEY` environment value. -/
def resolve_user_address {Address : Type} (parseAddr : String → Option Address)
    (signerAddr : String → Option Address)
    (user envAddr envKey : Option String) : Except AddrError Address :=
  match user with
  | some u =>
    match parseAddr u with
    | some a => .ok a
    | none => .error .invalidFormat
  | none =>
    match envAddr with
    | some u =>
      match parseAddr u with
      | some a => .ok a
      | none => .error .invalidEnvFormat
    | none =>
      match envKey with
      | some k =>
        match signerAddr k with
        | some a => .ok a
        | none => .error .invalidKey
      | none => .error .missingConfig

/-- C5: address resolution obeys strict precedence: a supplied explicit
address alone determines the result (environment address and private key are
never consulted, and an invalid explicit address is a hard error even when a
valid environment address exists); otherwise the environment address alone
determines it (the key is never consulted); otherwise the key derivation is
used. -/
theorem resolve_user_address_precedence {Address : Type}
    (parseAddr signerAddr : String → Option Address)
    (u e k : String) (envAddr envKey : Option String) :
    (resolve_user_address parseAddr signerAddr (some u) envAddr envKey =
      resolve_user_address parseAddr signerAddr (some u) none none) ∧
    (parseAddr u = none →
      resolve_user_address parseAddr signerAddr (some u) envAddr envKey =
        .error .invalidFormat) ∧
    (∀ a, parseAddr u = some a →
      resolve_user_address parseAddr signerAddr (some u) envAddr envKey = .ok a) ∧
    (resolve_user_address parseAddr signerAddr none (some e) envKey =
      resolve_user_address parseAddr signerAddr none (some e) none) ∧
    (∀ a, parseAddr e = some a →
      resolve_user_address parseAddr signerAddr none (some e) envKey = .ok a) ∧
    (∀ a, signerAddr k = some a →
      resolve_user_address parseAddr signerAddr none none (some k) = .ok a) := by
  refine ⟨?_, ?_, ?_, ?_, ?_, ?_⟩
  · cases hp : parseAddr u <;> simp [resolve_user_address, hp]
  · intro h
    simp [resolve_user_address, h]
  · intro a h
    simp [resolve_user_address, h]
  · cases hp : parseAddr e <;> simp [resolve_user_address, hp]
  · intro a h
    simp [resolve_user_address, h]
  · intro a h
    simp [resolve_user_address, h]

/-- A demonstration address parser used to instantiate the resolver theorems
at concrete inputs. -/
def demoParseAddr : String → Option ℕ :=
  fun s => if s = "0xgood" then some 7 else none

/-- A demonstration signer derivation used to instantiate the resolver
theorems at concrete inputs. -/
def demoSignerAddr : String → Option ℕ :=
  fun s => if s = "key" then some 9 else none

theorem resolve_user_address_precedence_witness :
    resolve_user_address demoParseAddr demoSignerAddr (some "bad") (some "0xgood") none =
      .error .invalidFormat ∧
    resolve_user_address demoParseAddr demoSignerAddr (some "0xgood") (some "other") none =
      .ok 7 ∧
    resolve_user_address demoParseAddr demoSignerAddr none none (some "key") = .ok 9 :=
  ⟨(resolve_user_address_precedence demoParseAddr demoSignerAddr "bad" "e" "k"
      (some "0xgood") none).2.1 (by simp [demoParseAddr]),
   (resolve_user_address_precedence demoParseAddr demoSignerAddr "0xgood" "e" "k"
      (some "other") none).2.2.1 7 (by simp [demoParseAddr]),
   (resolve_user_address_precedence demoParseAddr demoSignerAddr "u" "e" "key"
      none none).2.2.2.2.2 9 (by simp [demoSignerAddr])⟩

/-! Approval targets (`src/commands/approve.rs`). -/

/-- The fields of the SDK chain contract configuration consumed by this
repository: the exchange contract, the optional negative-risk adapter, and
the conditional-tokens (multi-token) contract. Addresses are modelled as
naturals. -/
structure ContractConfig where
  exchange : ℕ
  neg_risk_adapter : Option ℕ
  conditional_tokens : ℕ
deriving DecidableEq

/-- `build_approval_targets` from `src/commands/approve.rs` lines 128-142,
parameterized over the SDK `contract_config` lookup (chain id and neg-risk
flag to an optional configuration): the primary exchange and the neg-risk
exchange, followed by the neg-risk adapter when the configuration supplies
one. -/
def build_approval_targets (contract_config : ℕ → Bool → Option ContractConfig)
    (chain : ℕ) : Except String (List (String × ℕ)) :=
  match contract_config chain false with
  | none => .error "Failed to get contract config"
  | some config =>
    match contract_config chain true with
    | none => .error "Failed to get neg risk contract config"
    | some neg_risk_config =>
      match neg_risk_config.neg_risk_adapter with
      | some adapter =>
        .ok [("CTF Exchange", config.exchange),
             ("Neg Risk CTF Exchange", neg_risk_config.exchange),
             ("Neg Risk Adapter", adapter)]
      | none =>
        .ok [("CTF Exchange", config.exchange),
             ("Neg Risk CTF Exchange", neg_risk_config.exchange)]

/-- C6: with both configurations present, a configured adapter yields exactly
the 3 targets [primary exchange, neg-risk exchange, adapter] in that order, no
adapter yields exactly the 2 exchanges in that order, and when the configured
addresses are non-zero every returned address is non-zero. -/
theorem build_approval_targets_spec (cc : ℕ → Bool → Option ContractConfig)
    (chain : ℕ) (c n : ContractConfig)
    (h1 : cc chain false = some c) (h2 : cc chain true = some n)
    (hc : c.exchange ≠ 0) (hn : n.exchange ≠ 0)
    (ha : ∀ ad, n.neg_risk_adapter = some ad → ad ≠ 0) :
    (∀ ad, n.neg_risk_adapter = some ad →
      build_approval_targets cc chain =
        .ok [("CTF Exchange", c.exchange), ("Neg Risk CTF Exchange", n.exchange),
             ("Neg Risk Adapter", ad)]) ∧
    (n.neg_risk_adapter = none →
      build_approval_targets cc chain =
        .ok [("CTF Exchange", c.exchange), ("Neg Risk CTF Exchange", n.exchange)]) ∧
    (∀ ts, build_approval_targets cc chain = .ok ts → ∀ t ∈ ts, t.2 ≠ 0) := by
  simp only [build_approval_targets, h1, h2]
  refine ⟨fun ad had => by rw [had], fun had => by rw [had], fun ts hts t ht => ?_⟩
  rcases hna : n.neg_risk_adapter with _ | ad <;> rw [hna] at hts <;>
    injection hts with hts <;> subst hts <;>
    simp only [List.mem_cons, List.not_mem_nil, or_false] at ht
  · rcases ht with h | h <;> subst h
    · exact hc
    · exact hn
  · rcases ht with h | h | h <;> subst h
    · exact hc
    · exact hn
    · exact ha ad hna

/-- A demonstration contract configuration with a neg-risk adapter, used to
instantiate the approval theorems at concrete inputs. -/
def demoConfigWithAdapter : ℕ → Bool → Option ContractConfig :=
  fun chain negRisk =>
    if chain = 137 then
      (if negRisk then some ⟨2, some 3, 9⟩ else some ⟨1, none, 9⟩)
    else none

/-- A demonstration contract configuration without a neg-risk adapter. -/
def demoConfigNoAdapter : ℕ → Bool → Option ContractConfig :=
  fun chain negRisk =>
    if chain = 137 then
      (if negRisk then some ⟨2, none, 9⟩ else some ⟨1, none, 9⟩)
    else none

theorem build_approval_targets_spec_witness :
    build_approval_targets demoConfigWithAdapter 137 =
      .ok [("CTF Exchange", 1), ("Neg Risk CTF Exchange", 2), ("Neg Risk Adapter", 3)] ∧
    build_approval_targets demoConfigNoAdapter 137 =
      .ok [("CTF Exchange", 1), ("Neg Risk CTF Exchange", 2)] :=
  ⟨(build_approval_targets_spec demoConfigWithAdapter 137 ⟨1, none, 9⟩ ⟨2, some 3, 9⟩
      (by simp [demoConfigWithAdapter]) (by simp [demoConfigWithAdapter])
      (by simp) (by simp) (by simp)).1 3 rfl,
   (build_approval_targets_spec demoConfigNoAdapter 137 ⟨1, none, 9⟩ ⟨2, none, 9⟩
      (by simp [demoConfigNoAdapter]) (by simp [demoConfigNoAdapter])
      (by simp) (by simp) (by simp)).2.1 rfl⟩

/-! The approval command effect trace (`src/commands/approve.rs`). -/

/-- USDC.e token address on Polygon, `src/constants.rs` line 5. -/
def USDC_E_ADDRESS : ℕ := 0x2791Bca1f2de4661ED88A30C99A7a9449Aa84174

/-- Native USDC token address on Polygon, `src/constants.rs` line 6. -/
def USDC_NATIVE_ADDRESS : ℕ := 0x3c499c542cEF5E3811e1192ce70d8cC03d5c3359

/-- The observable effects emitted by `execute` in `src/commands/approve.rs`:
console output, the RPC connection, read-only chain queries, transaction
submissions, and the fixed 10-second cooldown sleeps. -/
inductive Effect where
  | printDryRunHeader
  | printTarget (name : String) (addr : ℕ)
  | printTotal (count : ℕ)
  | connectRpc
  | checkAllowance (token owner spender : ℕ)
  | checkApprovalForAll (ctf account operator : ℕ)
  | approveToken (token spender : ℕ)
  | setApprovalForAll (ctf operator : ℕ)
  | sleep10
deriving DecidableEq

/-- Network or chain interactions (everything except console output and
local sleeps). -/
def isNetworkEffect : Effect → Bool
  | .connectRpc => true
  | .checkAllowance _ _ _ => true
  | .checkApprovalForAll _ _ _ => true
  | .approveToken _ _ => true
  | .setApprovalForAll _ _ => true
  | _ => false

/-- Chain transaction submissions (state-mutating calls). -/
def isTxSubmission : Effect → Bool
  | .approveToken _ _ => true
  | .setApprovalForAll _ _ => true
  | _ => false

/-- ERC-20 `approve` transaction submissions. -/
def isErc20Approve : Effect → Bool
  | .approveToken _ _ => true
  | _ => false

/-- Dry-run target descriptor lines. -/
def isPrintTargetEffect : Effect → Bool
  | .printTarget _ _ => true
  | _ => false

/-- The Checking phase of `execute` (`src/commands/approve.rs` lines 49-68):
for every target, query both USDC allowances and the multi-token approval
status. The Verifying phase (lines 101-120) emits the same query sequence. -/
def checkingPhase (owner ctf : ℕ) (targets : List (String × ℕ)) : List Effect :=
  targets.flatMap fun t =>
    [.checkAllowance USDC_E_ADDRESS owner t.2,
     .checkAllowance USDC_NATIVE_ADDRESS owner t.2,
     .checkApprovalForAll ctf owner t.2]

/-- The per-target effect block of the Approving phase
(`src/commands/approve.rs` lines 72-99): an initial cooldown, then for each
of the two USDC token variants an approval submission followed by a cooldown,
then one more cooldown, then the multi-token `setApprovalForAll` submission
(with no cooldown after it). -/
def approvingBlock (ctf : ℕ) (t : String × ℕ) : List Effect :=
  [.sleep10,
   .approveToken USDC_E_ADDRESS t.2, .sleep10,
   .approveToken USDC_NATIVE_ADDRESS t.2, .sleep10,
   .sleep10,
   .setApprovalForAll ctf t.2]

/-- The Approving phase over all targets, in the same enumeration order as
Checking. -/
def approvingPhase (ctf : ℕ) (targets : List (String × ℕ)) : List Effect :=
  targets.flatMap (approvingBlock ctf)

/-- The effect trace of `execute` from `src/commands/approve.rs` lines 22-125,
given the built target list: with `dry_run` the command prints a header, one
descriptor per target and a total, and returns before any credential, RPC or
chain interaction; otherwise it connects to the RPC endpoint and runs the
Checking, Approving and Verifying phases. The outcome of each individual
query or transaction does not change the emitted sequence (each failure is
logged and iteration continues), so the trace needs no oracle for call
results. -/
def approve_execute_trace (owner ctf : ℕ) (dryRun : Bool)
    (targets : List (String × ℕ)) : List Effect :=
  if dryRun then
    .printDryRunHeader ::
      (targets.map (fun t => .printTarget t.1 t.2) ++ [.printTotal targets.length])
  else
    .connectRpc ::
      (checkingPhase owner ctf targets ++ approvingPhase ctf targets ++
        checkingPhase owner ctf targets)

theorem filter_network_map_printTarget (ts : List (String × ℕ)) :
    (ts.map (fun t => Effect.printTarget t.1 t.2)).filter isNetworkEffect = [] := by
  induction ts with
  | nil => rfl
  | cons t ts ih => simpa [isNetworkEffect] using ih

theorem filter_print_map_printTarget (ts : List (String × ℕ)) :
    (ts.map (fun t => Effect.printTarget t.1 t.2)).filter isPrintTargetEffect =
      ts.map (fun t => Effect.printTarget t.1 t.2) := by
  induction ts with
  | nil => rfl
  | cons t ts ih => simpa [isPrintTargetEffect] using ih

/-- C7: the dry-run branch of the approval command performs zero network or
chain interactions and displays exactly one target descriptor per configured
target, in order. -/
theorem dry_run_no_network (owner ctf : ℕ) (targets : List (String × ℕ)) :
    (approve_execute_trace owner ctf true targets).filter isNetworkEffect = [] ∧
    (approve_execute_trace owner ctf true targets).filter isPrintTargetEffect =
      targets.map (fun t => .printTarget t.1 t.2) ∧
    ((approve_execute_trace owner ctf true targets).filter isPrintTargetEffect).length =
      targets.length := by
  have h2 : (approve_execute_trace owner ctf true targets).filter isPrintTargetEffect =
      targets.map (fun t => .printTarget t.1 t.2) := by
    simp [approve_execute_trace, List.filter_append, isPrintTargetEffect,
      filter_print_map_printTarget]
  refine ⟨?_, h2, by rw [h2, List.length_map]⟩
  simp [approve_execute_trace, List.filter_append, isNetworkEffect,
    filter_network_map_printTarget]

/-- The original cooldown claim: every transaction submission in the trace is
immediately preceded and immediately followed by a cooldown sleep. -/
def everyTxCooldownWrapped (l : List Effect) : Prop :=
  ∀ i, i < l.length → isTxSubmission (l.getD i .sleep10) = true →
    (1 ≤ i ∧ l.getD (i - 1) .sleep10 = .sleep10) ∧
    (i + 1 < l.length ∧ l.getD (i + 1) .sleep10 = .sleep10)

instance (l : List Effect) : Decidable (everyTxCooldownWrapped l) := by
  unfold everyTxCooldownWrapped
  infer_instance

/-- C8 counterexample: on a 3-target run the final `setApprovalForAll`
submission is the last effect of the Approving phase and is followed by a
Verifying-phase query, not by a cooldown, so the claimed wrapping fails. -/
theorem approving_cooldowns_cex :
    ¬ everyTxCooldownWrapped (approve_execute_trace 7 9 false
      [("CTF Exchange", 1), ("Neg Risk CTF Exchange", 2), ("Neg Risk Adapter", 3)]) := by
  decide

/-- Adjacency discipline that does hold in the trace: any transaction
submission is immediately preceded by a cooldown sleep, and any ERC-20
approval submission is immediately followed by a cooldown sleep. -/
def cooldownRel (a b : Effect) : Prop :=
  (isTxSubmission b = true → a = .sleep10) ∧ (isErc20Approve a = true → b = .sleep10)

theorem cooldownRel_of_passive {a b : Effect} (h1 : isTxSubmission b = false)
    (h2 : isErc20Approve a = false) : cooldownRel a b :=
  ⟨fun hb => by simp [h1] at hb, fun ha => by simp [h2] at ha⟩

theorem cooldownRel_sleep_left (b : Effect) : cooldownRel .sleep10 b :=
  ⟨fun _ => rfl, fun h => by simp [isErc20Approve] at h⟩

theorem cooldownRel_to_sleep (a : Effect) : cooldownRel a .sleep10 :=
  ⟨fun h => by simp [isTxSubmission] at h, fun _ => rfl⟩

theorem checkingPhase_passive (owner ctf : ℕ) (ts : List (String × ℕ)) :
    ∀ e ∈ checkingPhase owner ctf ts,
      isTxSubmission e = false ∧ isErc20Approve e = false := by
  intro e he
  simp only [checkingPhase, List.mem_flatMap, List.mem_cons,
    List.not_mem_nil, or_false] at he
  obtain ⟨t, _, he⟩ := he
  rcases he with h | h | h <;> subst h <;> exact ⟨rfl, rfl⟩

theorem chain_checkingPhase (owner ctf : ℕ) (ts : List (String × ℕ)) :
    List.Chain' cooldownRel (checkingPhase owner ctf ts) := by
  induction ts with
  | nil => simp [checkingPhase]
  | cons t ts ih =>
    rw [show checkingPhase owner ctf (t :: ts) =
      [.checkAllowance USDC_E_ADDRESS owner t.2,
       .checkAllowance USDC_NATIVE_ADDRESS owner t.2,
       .checkApprovalForAll ctf owner t.2] ++ checkingPhase owner ctf ts from rfl,
      List.chain'_append]
    refine ⟨?_, ih, ?_⟩
    · exact List.chain'_cons.mpr ⟨cooldownRel_of_passive rfl rfl,
        List.chain'_cons.mpr ⟨cooldownRel_of_passive rfl rfl, List.chain'_singleton _⟩⟩
    · intro x hx y hy
      have hxe : x = .checkApprovalForAll ctf owner t.2 :=
        (by simpa using hx : Effect.checkApprovalForAll ctf owner t.2 = x).symm
      have hy2 := checkingPhase_passive owner ctf ts y (List.mem_of_mem_head? hy)
      subst hxe
      exact cooldownRel_of_passive hy2.1 rfl

theorem chain_approvingBlock (ctf : ℕ) (t : String × ℕ) :
    List.Chain' cooldownRel (approvingBlock ctf t) :=
  List.chain'_cons.mpr ⟨cooldownRel_sleep_left _,
    List.chain'_cons.mpr ⟨cooldownRel_to_sleep _,
      List.chain'_cons.mpr ⟨cooldownRel_sleep_left _,
        List.chain'_cons.mpr ⟨cooldownRel_to_sleep _,
          List.chain'_cons.mpr ⟨cooldownRel_sleep_left _,
            List.chain'_cons.mpr ⟨cooldownRel_sleep_left _,
              List.chain'_singleton _⟩⟩⟩⟩⟩⟩

theorem chain_approvingPhase (ctf : ℕ) (ts : List (String × ℕ)) :
    List.Chain' cooldownRel (approvingPhase ctf ts) := by
  induction ts with
  | nil => simp [approvingPhase]
  | cons t ts ih =>
    rw [show approvingPhase ctf (t :: ts) =
      approvingBlock ctf t ++ approvingPhase ctf ts from by
        simp [approvingPhase], List.chain'_append]
    refine ⟨chain_approvingBlock ctf t, ih, ?_⟩
    intro x hx y hy
    cases ts with
    | nil => simp [approvingPhase] at hy
    | cons t2 ts2 =>
      have hys : y = .sleep10 := by
        simp only [approvingPhase, List.flatMap_cons, approvingBlock,
          List.cons_append, List.head?_cons, Option.mem_def,
          Option.some.injEq] at hy
        exact hy.symm
      subst hys
      exact cooldownRel_to_sleep x

theorem approvingPhase_getLast_concat (ctf : ℕ) (ts : List (String × ℕ))
    (p : String × ℕ) :
    (approvingPhase ctf (ts ++ [p])).getLast? = some (.setApprovalForAll ctf p.2) := by
  simp [approvingPhase, List.flatMap_append, approvingBlock]

theorem approvingPhase_getLast_set (ctf : ℕ) (ts : List (String × ℕ)) :
    ∀ x ∈ (approvingPhase ctf ts).getLast?, ∃ ad, x = .setApprovalForAll ctf ad := by
  induction ts using List.reverseRecOn with
  | nil => intro x hx; simp [approvingPhase] at hx
  | append_singleton ts p _ =>
    intro x hx
    rw [approvingPhase_getLast_concat] at hx
    simp only [Option.mem_def, Option.some.injEq] at hx
    exact ⟨p.2, hx.symm⟩

/-- C8 amended: in the full non-dry-run trace every transaction submission is
immediately preceded by a cooldown sleep and every ERC-20 approval submission
is immediately followed by one, but the final target's multi-token
`setApprovalForAll` submission ends the Approving phase with no cooldown
after it. -/
theorem approving_cooldowns_amended (owner ctf : ℕ) (ts : List (String × ℕ))
    (nm : String) (ad : ℕ) :
    List.Chain' cooldownRel (approve_execute_trace owner ctf false ts) ∧
    (approvingPhase ctf (ts ++ [(nm, ad)])).getLast? =
      some (.setApprovalForAll ctf ad) := by
  refine ⟨?_, approvingPhase_getLast_concat ctf ts (nm, ad)⟩
  cases ts with
  | nil =>
    simp [approve_execute_trace, checkingPhase, approvingPhase]
  | cons t ts =>
    rw [show approve_execute_trace owner ctf false (t :: ts) = .connectRpc ::
      (checkingPhase owner ctf (t :: ts) ++ approvingPhase ctf (t :: ts) ++
        checkingPhase owner ctf (t :: ts)) from by simp [approve_execute_trace]]
    refine List.chain'_cons'.mpr ⟨?_, ?_⟩
    · intro y hy
      have hye : y = .checkAllowance USDC_E_ADDRESS owner t.2 := by
        simp only [checkingPhase, List.flatMap_cons, List.cons_append,
          List.head?_cons, Option.mem_def, Option.some.injEq] at hy
        exact hy.symm
      subst hye
      exact cooldownRel_of_passive rfl rfl
    · rw [List.chain'_append]
      refine ⟨?_, chain_checkingPhase owner ctf (t :: ts), ?_⟩
      · rw [List.chain'_append]
        refine ⟨chain_checkingPhase owner ctf (t :: ts),
          chain_approvingPhase ctf (t :: ts), ?_⟩
        intro x hx y hy
        have hys : y = .sleep10 := by
          simp only [approvingPhase, List.flatMap_cons, approvingBlock,
            List.cons_append, List.head?_cons, Option.mem_def,
            Option.some.injEq] at hy
          exact hy.symm
        subst hys
        exact cooldownRel_to_sleep x
      · intro x hx y hy
        rw [List.getLast?_append] at hx
        have hx2 : x ∈ (approvingPhase ctf (t :: ts)).getLast? := by
          obtain ⟨p, hp, hlast⟩ : ∃ p, p ∈ t :: ts ∧ (approvingPhase ctf (t :: ts)).getLast? =
              some (.setApprovalForAll ctf p.2) := by
            obtain ⟨ts0, p, hts⟩ : ∃ ts0 p, t :: ts = ts0 ++ [p] := by
              refine ⟨(t :: ts).dropLast, (t :: ts).getLast (by simp), ?_⟩
              rw [List.dropLast_append_getLast]
            refine ⟨p, ?_, ?_⟩
            · rw [hts]
              exact List.mem_append_right _ (List.mem_singleton.mpr rfl)
            · rw [hts]
              exact approvingPhase_getLast_concat ctf ts0 p
          rw [hlast] at hx ⊢
          simpa using hx
        obtain ⟨ad2, hxe⟩ := approvingPhase_getLast_set ctf (t :: ts) x hx2
        subst hxe
        have hy2 := checkingPhase_passive owner ctf (t :: ts) y (List.mem_of_mem_head? hy)
        exact cooldownRel_of_passive hy2.1 rfl

/-! Order-book sorting (`src/commands/orderbook.rs`). -/

/-- An order-book level (the SDK `OrderSummary`): price and size decimals.
The sorter only reorders; values are never mutated. -/
structure OrderSummary where
  price : ℚ
  size : ℚ
deriving DecidableEq

/-- The comparator of `sort_bids` (`src/commands/orderbook.rs` line 49):
`a` may precede `b` exactly when `b.price.cmp(&a.price)` is not `Greater`,
i.e. when `b.price ≤ a.price` (descending). -/
def bidLe (a b : OrderSummary) : Bool := decide (b.price ≤ a.price)

/-- The comparator of `sort_asks` (`src/commands/orderbook.rs` line 55):
ascending price order. -/
def askLe (a b : OrderSummary) : Bool := decide (a.price ≤ b.price)

/-- `sort_bids` from `src/commands/orderbook.rs` lines 48-51. Rust
`Vec::sort_by` is a stable sort; any stable sort for the same total preorder
computes the same output list, so it is embedded as a stable merge sort. -/
def sort_bids (bids : List OrderSummary) : List OrderSummary :=
  bids.mergeSort bidLe

/-- `sort_asks` from `src/commands/orderbook.rs` lines 54-57, embedded like
`sort_bids`. -/
def sort_asks (asks : List OrderSummary) : List OrderSummary :=
  asks.mergeSort askLe

theorem bidLe_trans : ∀ a b c : OrderSummary, bidLe a b → bidLe b c → bidLe a c := by
  intro a b c h1 h2
  simp only [bidLe, decide_eq_true_eq] at h1 h2 ⊢
  exact le_trans h2 h1

theorem bidLe_total : ∀ a b : OrderSummary, bidLe a b || bidLe b a := by
  intro a b
  simp only [bidLe, Bool.or_eq_true, decide_eq_true_eq]
  exact le_total b.price a.price

theorem askLe_trans : ∀ a b c : OrderSummary, askLe a b → askLe b c → askLe a c := by
  intro a b c h1 h2
  simp only [askLe, decide_eq_true_eq] at h1 h2 ⊢
  exact le_trans h1 h2

theorem askLe_total : ∀ a b : OrderSummary, askLe a b || askLe b a := by
  intro a b
  simp only [askLe, Bool.or_eq_true, decide_eq_true_eq]
  exact le_total a.price b.price

/-- Stability of the embedded sort, stated through price classes: the
subsequence of levels at any fixed price is returned in its input order. -/
theorem mergeSort_filter_price (le : OrderSummary → OrderSummary → Bool)
    (htrans : ∀ a b c : OrderSummary, le a b → le b c → le a c)
    (htotal : ∀ a b : OrderSummary, le a b || le b a)
    (heq : ∀ a b : OrderSummary, a.price = b.price → le a b = true)
    (l : List OrderSummary) (q : ℚ) :
    (l.mergeSort le).filter (fun e => decide (e.price = q)) =
      l.filter (fun e => decide (e.price = q)) := by
  have hpair : (l.filter (fun e => decide (e.price = q))).Pairwise
      (fun a b => le a b = true) := by
    apply List.pairwise_of_forall_mem_list
    intro a ha b hb
    have ha2 : a.price = q := by
      simpa using (List.mem_filter.mp ha).2
    have hb2 : b.price = q := by
      simpa using (List.mem_filter.mp hb).2
    exact heq a b (ha2.trans hb2.symm)
  have hsub : List.Sublist (l.filter (fun e => decide (e.price = q))) (l.mergeSort le) :=
    List.sublist_mergeSort htrans htotal hpair (List.filter_sublist l)
  have hsub2 := hsub.filter (fun e => decide (e.price = q))
  rw [List.filter_filter] at hsub2
  have hff : (l.filter fun a => decide (a.price = q) && decide (a.price = q)) =
      l.filter (fun e => decide (e.price = q)) := by
    congr 1
    funext a
    exact Bool.and_self _
  rw [hff] at hsub2
  have hperm : List.Perm ((l.mergeSort le).filter (fun e => decide (e.price = q)))
      (l.filter (fun e => decide (e.price = q))) :=
    (List.mergeSort_perm l le).filter _
  exact (hsub2.eq_of_length hperm.length_eq.symm).symm

/-- C9: both sorters return a permutation of their input, with prices
non-increasing for bids and non-decreasing for asks; both are stable (the
levels at each fixed price keep their input order), idempotent, and leave
empty and singleton inputs unchanged. -/
theorem sort_levels_spec (l : List OrderSummary) (q : ℚ) (x : OrderSummary) :
    List.Perm (sort_bids l) l ∧
    (sort_bids l).Pairwise (fun a b => b.price ≤ a.price) ∧
    (sort_bids l).filter (fun e => decide (e.price = q)) =
      l.filter (fun e => decide (e.price = q)) ∧
    sort_bids (sort_bids l) = sort_bids l ∧
    sort_bids [] = [] ∧ sort_bids [x] = [x] ∧
    List.Perm (sort_asks l) l ∧
    (sort_asks l).Pairwise (fun a b => a.price ≤ b.price) ∧
    (sort_asks l).filter (fun e => decide (e.price = q)) =
      l.filter (fun e => decide (e.price = q)) ∧
    sort_asks (sort_asks l) = sort_asks l ∧
    sort_asks [] = [] ∧ sort_asks [x] = [x] := by
  refine ⟨List.mergeSort_perm l bidLe, ?_, ?_, ?_, by simp [sort_bids], by simp [sort_bids],
    List.mergeSort_perm l askLe, ?_, ?_, ?_, by simp [sort_asks], by simp [sort_asks]⟩
  · exact (List.sorted_mergeSort bidLe_trans bidLe_total l).imp
      (fun h => by simpa [bidLe] using h)
  · exact mergeSort_filter_price bidLe bidLe_trans bidLe_total
      (fun a b h => by simp [bidLe, h.ge]) l q
  · exact List.mergeSort_of_sorted (List.sorted_mergeSort bidLe_trans bidLe_total l)
  · exact (List.sorted_mergeSort askLe_trans askLe_total l).imp
      (fun h => by simpa [askLe] using h)
  · exact mergeSort_filter_price askLe askLe_trans askLe_total
      (fun a b h => by simp [askLe, h.le]) l q
  · exact List.mergeSort_of_sorted (List.sorted_mergeSort askLe_trans askLe_total l)

/-! Balance formatting (`src/commands/status.rs`). -/

/-- Modelled from the library boundary: `rust_decimal::Decimal::from_str`
applied to the decimal-digit string of a non-negative integer (the `U256`
display form) succeeds exactly when the value fits the 96-bit mantissa;
larger inputs return a parse error, which the call site swallows with
`unwrap_or_default` (defaulting to zero). -/
def decimal_from_str_nat (n : ℕ) : Option ℚ :=
  if n < 2 ^ 96 then some (n : ℚ) else none

/-- `format_balance` from `src/commands/status.rs` lines 44-47: parse the
raw balance's decimal string into a `Decimal`, defaulting to zero on parse
failure, and divide by 1,000,000 (the 6-decimal USDC scaling). -/
def format_balance (raw_balance : ℕ) : ℚ :=
  ((decimal_from_str_nat raw_balance).getD 0) / 1000000

/-- C10: `format_balance` never fails; any balance that fits the `Decimal`
mantissa is scaled exactly by 10^6, while any larger balance silently
becomes 0 because the parse error is swallowed. -/
theorem format_balance_spec (raw : ℕ) :
    (raw < 2 ^ 96 → format_balance raw = (raw : ℚ) / 1000000) ∧
    (2 ^ 96 ≤ raw → format_balance raw = 0) := by
  constructor
  · intro h
    unfold format_balance decimal_from_str_nat
    rw [if_pos h]
    rfl
  · intro h
    unfold format_balance decimal_from_str_nat
    rw [if_neg (Nat.not_lt.mpr h)]
    norm_num

theorem format_balance_spec_witness :
    format_balance 4281842 = (4281842 : ℚ) / 1000000 ∧ format_balance (2 ^ 96) = 0 :=
  ⟨(format_balance_spec 4281842).1 (by norm_num), (format_balance_spec (2 ^ 96)).2 le_rfl⟩

end PolymarketTools
